import Mathlib

/-!
Shallow embedding of the homelab_ops Prefect flows
(`jobs/prefect/flows/backup_generic_dir.py`,
`jobs/prefect/flows/backup_homeassistant.py`,
`jobs/prefect/flows/permission_fixup.py`) together with proofs of the
specification claims about them.

Strings are modelled as Lean `String`/`List Char`; POSIX timestamps and the
`time.time()` clock as `Int` seconds; directories as lists of named files
with a modification time.  Python's ASCII-relevant behaviour of
`str.strip`, `str.lower` and the two regular expressions of `_slugify` is
embedded character by character.
-/

namespace HomelabOps

/-- The character class `[a-z0-9._-]` of `_slugify`'s first regex, by code
point: `a`-`z` (97-122), `0`-`9` (48-57), `.` (46), `_` (95), `-` (45). -/
def isSlugChar (c : Char) : Bool :=
  (97 ≤ c.toNat && c.toNat ≤ 122) || (48 ≤ c.toNat && c.toNat ≤ 57) ||
    c.toNat == 46 || c.toNat == 95 || c.toNat == 45

/-- ASCII whitespace removed by Python's `str.strip()`: space, `\t`, `\n`,
`\v`, `\f`, `\r` (code points 32 and 9-13). -/
def isSpaceChar (c : Char) : Bool :=
  c.toNat == 32 || (9 ≤ c.toNat && c.toNat ≤ 13)

/-- ASCII case folding performed by `str.lower()`: `A`-`Z` (65-90) shift
down by 32, everything else is fixed. -/
def lowerChar (c : Char) : Char :=
  if 65 ≤ c.toNat && c.toNat ≤ 90 then Char.ofNat (c.toNat + 32) else c

/-- Remove the maximal trailing run of characters satisfying `p`
(the right half of Python's `str.strip`). -/
def dropTrailing (p : Char → Bool) : List Char → List Char
  | [] => []
  | c :: cs =>
    let r := dropTrailing p cs
    if r.isEmpty && p c then [] else c :: r

/-- Python's `str.strip(chars)`: remove the maximal leading and trailing
runs of characters satisfying `p`. -/
def stripEnds (p : Char → Bool) (l : List Char) : List Char :=
  dropTrailing p (l.dropWhile p)

/-- Worker for `re.sub(r"[^a-z0-9._-]+", "-", name)`: the flag records
whether the previous character was part of a run of bad characters, so a
maximal run contributes exactly one `-`. -/
def replaceBadRunsGo : Bool → List Char → List Char
  | _, [] => []
  | inBad, c :: cs =>
    if isSlugChar c then c :: replaceBadRunsGo false cs
    else if inBad then replaceBadRunsGo inBad cs
    else '-' :: replaceBadRunsGo true cs

/-- `re.sub(r"[^a-z0-9._-]+", "-", name)`: each maximal run of characters
outside the class becomes a single `-`. -/
def replaceBadRuns (l : List Char) : List Char :=
  replaceBadRunsGo false l

/-- Worker for `re.sub(r"-{2,}", "-", name)`: the flag records whether the
previous emitted character position sits inside a dash run, so each maximal
run of dashes is emitted once. -/
def collapseDashesGo : Bool → List Char → List Char
  | _, [] => []
  | prevDash, c :: cs =>
    if c == '-' then
      if prevDash then collapseDashesGo prevDash cs
      else '-' :: collapseDashesGo true cs
    else c :: collapseDashesGo false cs

/-- `re.sub(r"-{2,}", "-", name)`: collapsing every maximal dash run to a
single dash agrees with the regex, which only rewrites runs of length ≥ 2. -/
def collapseDashes (l : List Char) : List Char :=
  collapseDashesGo false l

/-- `_slugify` from `backup_generic_dir.py` lines 12-16:
strip and lowercase, replace runs outside `[a-z0-9._-]` by `-`, collapse
repeated dashes, strip dashes from the ends, and fall back to `"backup"`
when nothing is left (`return name or "backup"`). -/
def slugify (s : String) : String :=
  let name := (stripEnds isSpaceChar s.data).map lowerChar
  let name := replaceBadRuns name
  let name := stripEnds (fun c => c == '-') (collapseDashes name)
  if name.isEmpty then "backup" else String.mk name

/-- Python `str.strip()` on a whole string. -/
def pyStrip (s : String) : String :=
  String.mk (stripEnds isSpaceChar s.data)

/-- Python `str.strip("/")` on a whole string. -/
def pyStripSlashes (s : String) : String :=
  String.mk (stripEnds (fun c => c == '/') s.data)

/-- Split a character list at every occurrence of `sep`, keeping empty
pieces, exactly like Python's `str.split` with a one-character separator. -/
def splitChar (sep : Char) : List Char → List (List Char)
  | [] => [[]]
  | c :: cs =>
    let r := splitChar sep cs
    if c == sep then [] :: r
    else
      match r with
      | [] => [[c]]
      | h :: t => (c :: h) :: t

/-- Python's `s.split(",")`. -/
def pySplitCommas (s : String) : List String :=
  (splitChar ',' s.data).map String.mk

/-- `_parse_exclude_dirs` from `backup_generic_dir.py` lines 19-23:
`None` or empty input gives `[]`; otherwise split on commas, strip
whitespace then surrounding slashes from each part, and drop the parts
that are empty afterwards (`if p` keeps exactly the non-empty strings). -/
def parseExcludeDirs (excludeDirs : Option String) : List String :=
  match excludeDirs with
  | none => []
  | some s =>
    if s == "" then []
    else
      let parts := (pySplitCommas s).map (fun p => pyStripSlashes (pyStrip p))
      parts.filter (fun p => p != "")

/-- Zero-pad a number below 100 to two digits, as `strftime`'s `%m`/`%d`. -/
def pad2 (n : Nat) : String :=
  if n < 10 then "0" ++ toString n else toString n

/-- Four digit year, as `strftime`'s `%Y` for common-era years. -/
def pad4 (n : Nat) : String :=
  if n < 10 then "000" ++ toString n
  else if n < 100 then "00" ++ toString n
  else if n < 1000 then "0" ++ toString n
  else toString n

/-- `datetime.now(timezone.utc).strftime("%Y-%m-%d")` for the UTC calendar
date `(y, m, d)`. -/
def formatUtcDate (y m d : Nat) : String :=
  pad4 y ++ "-" ++ pad2 m ++ "-" ++ pad2 d

/-- The archive path's file name composed by `create_tar`
(`backup_generic_dir.py` lines 48-51): `f"{date}-{suffix}.tar"` with
`suffix = _slugify(target.name)`. -/
def createTarArchiveName (y m d : Nat) (targetName : String) : String :=
  formatUtcDate y m d ++ "-" ++ slugify targetName ++ ".tar"

/-- The argument vector built by `create_tar` (`backup_generic_dir.py`
lines 55-63): `["tar"]`, then for each exclusion the pair
`--exclude=./{ex}` and `--exclude=./{ex}/*`, then
`["-cf", archive, "-C", target, "."]`. -/
def createTarCmd (archive target : String) (excludes : List String) :
    List String :=
  let cmd := ["tar"]
  let cmd := excludes.foldl
    (fun c ex => c ++ ["--exclude=./" ++ ex, "--exclude=./" ++ ex ++ "/*"]) cmd
  cmd ++ ["-cf", archive, "-C", target, "."]

/-- A directory entry as the pruning tasks see it: a file name and its
`stat().st_mtime`, in seconds since the epoch. -/
structure FSFile where
  name : String
  mtime : Int
deriving DecidableEq, Repr

/-- One filesystem access performed by a pruning task. -/
inductive FSOp where
  | globList (pattern : String)
  | statFile (name : String)
  | unlinkFile (name : String)
deriving DecidableEq, Repr

/-- Insert into a list sorted by file name (helper for `sortByName`). -/
def insertByName (f : FSFile) : List FSFile → List FSFile
  | [] => [f]
  | g :: gs => if f.name < g.name then f :: g :: gs else g :: insertByName f gs

/-- `sorted(...)` over directory entries, ordered by path name as Python
sorts `Path` values lexicographically. -/
def sortByName (l : List FSFile) : List FSFile :=
  l.foldr insertByName []

/-- `suffix` is a suffix of `l`: compare with the last
`suffix.length` characters (when `suffix` is longer, `drop 0` leaves all
of `l` and the comparison fails on length). -/
def isCharSuffix (suffix l : List Char) : Bool :=
  suffix == l.drop (l.length - suffix.length)

/-- `name` ends with `suffix`. -/
def strEndsWith (name suffix : String) : Bool :=
  isCharSuffix suffix.data name.data

/-- A file name matches the glob pattern `*-{slug}.tar`, in which `*`
matches any (possibly empty) run of characters and the slug contains no
glob metacharacters, exactly when the name ends with `-{slug}.tar`. -/
def matchesArchivePattern (slug : String) (name : String) : Bool :=
  strEndsWith name ("-" ++ slug ++ ".tar")

/-- The loop of `prune_old_archives` (`backup_generic_dir.py` lines
89-98) over the globbed listing: stat each file, and when its mtime is
strictly below the cutoff unlink it and count it.  Returns the names
deleted, the count, and the filesystem accesses in order. -/
def pruneScan (cutoff : Int) : List FSFile → List String × Nat × List FSOp
  | [] => ([], 0, [])
  | f :: rest =>
    let r := pruneScan cutoff rest
    if f.mtime < cutoff then
      (f.name :: r.1, r.2.1 + 1,
        FSOp.statFile f.name :: FSOp.unlinkFile f.name :: r.2.2)
    else
      (r.1, r.2.1, FSOp.statFile f.name :: r.2.2)

/-- `prune_old_archives` from `backup_generic_dir.py` lines 74-101 on a
directory state `dir` with clock `now = time.time()`: return 0 at once
when `keep_days < 1`; otherwise glob `*-{_slugify(name_hint)}.tar` in
sorted order and delete every match whose mtime is strictly before
`now - keep_days * 86400`.  Returns the remaining directory, the count
returned by the task, and the trace of filesystem accesses. -/
def pruneOldArchives (dir : List FSFile) (keepDays : Int) (nameHint : String)
    (now : Int) : List FSFile × Nat × List FSOp :=
  if keepDays < 1 then (dir, 0, [])
  else
    let cutoff := now - keepDays * 86400
    let suffix := slugify nameHint
    let listing := sortByName (dir.filter (fun f => matchesArchivePattern suffix f.name))
    let scan := pruneScan cutoff listing
    (dir.filter (fun f => !(scan.1.contains f.name)), scan.2.1,
      FSOp.globList ("*-" ++ suffix ++ ".tar") :: scan.2.2)

/-- A Python `datetime`, either timezone-aware or naive, with its instant
in seconds.  Comparing an aware with a naive value raises `TypeError`. -/
inductive PyDatetime where
  | aware (t : Int)
  | naive (t : Int)
deriving DecidableEq, Repr

/-- Python's `<` on `datetime` values: defined within one kind, a
`TypeError` across kinds. -/
def dtLt : PyDatetime → PyDatetime → Except String Bool
  | PyDatetime.aware a, PyDatetime.aware b => Except.ok (a < b)
  | PyDatetime.naive a, PyDatetime.naive b => Except.ok (a < b)
  | _, _ => Except.error "TypeError"

/-- The loop of `prune_old_backups` (`backup_homeassistant.py` lines
101-109): per file, inside `try`, build the naive
`datetime.utcfromtimestamp(mtime)` and compare it with the cutoff; on
`ok true` unlink and count, on `ok false` keep, and on a raised
`TypeError` fall into `except Exception`, which only logs. -/
def haPruneScan (cutoff : PyDatetime) : List FSFile → List String × Nat
  | [] => ([], 0)
  | f :: rest =>
    let r := haPruneScan cutoff rest
    match dtLt (PyDatetime.naive f.mtime) cutoff with
    | Except.ok true => (f.name :: r.1, r.2 + 1)
    | Except.ok false => (r.1, r.2)
    | Except.error _ => (r.1, r.2)

/-- `prune_old_backups` from `backup_homeassistant.py` lines 87-112 on a
directory state: return 0 when the destination does not exist, otherwise
glob `*-homeassistant.tar` and run the per-file loop against the aware
cutoff `datetime.now(timezone.utc) - timedelta(days=keep_days)`. -/
def pruneOldBackups (destExists : Bool) (dir : List FSFile) (keepDays : Int)
    (now : Int) : List FSFile × Nat :=
  if !destExists then (dir, 0)
  else
    let cutoff := PyDatetime.aware (now - keepDays * 86400)
    let listing := dir.filter (fun f => strEndsWith f.name "-homeassistant.tar")
    let scan := haPruneScan cutoff listing
    (dir.filter (fun f => !(scan.1.contains f.name)), scan.2)

/-- Outcome of an attempted `os.chown` on one path, covering exactly the
exceptions `fix_permissions` handles; any other exception would abort the
run, which would then not be a completed run. -/
inductive ChownOutcome where
  | ok
  | notFound
  | permDenied
  | osFailure
deriving DecidableEq, Repr

/-- One path in the `fix_permissions` traversal: its name, whether
`path.is_dir()` holds, and what `os.chown` would do to it. -/
structure FSPath where
  name : String
  isDir : Bool
  outcome : ChownOutcome
deriving DecidableEq, Repr

/-- The four counters returned by `fix_permissions`. -/
structure OwnershipCounts where
  scanned : Nat
  changed : Nat
  skipped : Nat
  errors : Nat
deriving DecidableEq, Repr

/-- The traversal list of `fix_permissions` (`permission_fixup.py` lines
172-174): the root itself when `include_dirs`, then every descendant from
`rglob("*")`. -/
def fixTargets (root : FSPath) (descendants : List FSPath)
    (includeDirs : Bool) : List FSPath :=
  (if includeDirs then [root] else []) ++ descendants

/-- The body of the `fix_permissions` loop (`permission_fixup.py` lines
176-199) for one path: count it as scanned; skip directories when
`include_dirs` is false; in dry-run mode only count a change; otherwise
perform the chown (recorded in the mutation trace) and classify the
outcome into changed, skipped or errors. -/
def chownStep (uid gid : Nat) (dryRun includeDirs : Bool)
    (st : OwnershipCounts × List (String × Nat × Nat)) (p : FSPath) :
    OwnershipCounts × List (String × Nat × Nat) :=
  let c := { st.1 with scanned := st.1.scanned + 1 }
  if p.isDir && !includeDirs then ({ c with skipped := c.skipped + 1 }, st.2)
  else if dryRun then ({ c with changed := c.changed + 1 }, st.2)
  else
    match p.outcome with
    | ChownOutcome.ok =>
        ({ c with changed := c.changed + 1 }, st.2 ++ [(p.name, uid, gid)])
    | ChownOutcome.notFound => ({ c with skipped := c.skipped + 1 }, st.2)
    | ChownOutcome.permDenied => ({ c with errors := c.errors + 1 }, st.2)
    | ChownOutcome.osFailure => ({ c with errors := c.errors + 1 }, st.2)

/-- `fix_permissions` from `permission_fixup.py` lines 35-84 on an
existing root (a missing root raises before any counting): fold the loop
body over the traversal list starting from zero counters and an empty
mutation trace.  Returns the counters of the summary dict together with
the list of `os.chown` mutations performed. -/
def fixPermissions (root : FSPath) (descendants : List FSPath)
    (uid gid : Nat) (dryRun includeDirs : Bool) :
    OwnershipCounts × List (String × Nat × Nat) :=
  (fixTargets root descendants includeDirs).foldl
    (chownStep uid gid dryRun includeDirs) (⟨0, 0, 0, 0⟩, [])

/-- A path is eligible for an ownership change: it is not a directory
entry exempted by `include_dirs=False`.  These are exactly the paths a
real run attempts to chown. -/
def eligiblePath (includeDirs : Bool) (p : FSPath) : Bool :=
  !(p.isDir && !includeDirs)

/-- Two adjacent characters are not both dashes (the relation collapsed
runs satisfy). -/
abbrev noadj (a b : Char) : Prop := ¬(a = '-' ∧ b = '-')

/-- The normal form every `_slugify` output satisfies: only characters of
the class, no two adjacent dashes, and no dash at either end. -/
def SlugNormal (l : List Char) : Prop :=
  (∀ c ∈ l, isSlugChar c = true) ∧ List.Chain' noadj l ∧
    l.head? ≠ some '-' ∧ l.getLast? ≠ some '-'

/-! ## Claims about the exclusion parser and the archive name -/

/-- C8: `_parse_exclude_dirs("a, /b/, ,c/")` yields exactly
`["a", "b", "c"]` in that order, and `None` as well as `""` yield the
empty list. -/
theorem parse_exclude_dirs_example :
    parseExcludeDirs (some "a, /b/, ,c/") = ["a", "b", "c"] ∧
      parseExcludeDirs none = [] ∧ parseExcludeDirs (some "") = [] := by
  refine ⟨by rfl, rfl, by rfl⟩

/-- C9: `_slugify` maps `""`, `"   "` (three spaces) and `"***"` to the
literal fallback `"backup"`. -/
theorem slugify_degenerate_inputs :
    slugify "" = "backup" ∧ slugify "   " = "backup" ∧
      slugify "***" = "backup" := by
  refine ⟨by rfl, by rfl, by rfl⟩

/-- C3, counterexample: the archive name `create_tar` builds for a target
whose base name is `static_server` on 2024-03-05 is not
`2024-03-05-static-server.tar`: the underscore lies inside `_slugify`'s
allowed class `[a-z0-9._-]` and is preserved, so no dash is substituted. -/
theorem create_tar_archive_name_counterexample :
    createTarArchiveName 2024 3 5 "static_server" ≠
      "2024-03-05-static-server.tar" := by
  decide

/-- C3, amended: the archive built for a target directory whose base name
is `static_server` on UTC date 2024-03-05 is named exactly
`2024-03-05-static_server.tar`, the bit-exact composition
`{YYYY-MM-DD}-{slug}.tar` in which the slugifier keeps the underscore. -/
theorem create_tar_archive_name_static_server :
    createTarArchiveName 2024 3 5 "static_server" =
      "2024-03-05-static_server.tar" := by
  rfl

/-! ## Claims about pruning -/

/-- C2: with `keep_days < 1` the generic pruner returns 0 at once: the
directory is untouched and the filesystem trace is empty (no glob listing,
no stat, no unlink). -/
theorem prune_old_archives_keep_days_lt_one (dir : List FSFile)
    (keepDays : Int) (nameHint : String) (now : Int) (h : keepDays < 1) :
    pruneOldArchives dir keepDays nameHint now = (dir, 0, []) := by
  simp [pruneOldArchives, h]

/-- Witness for C2 at `keep_days = 0` on a one-archive directory. -/
theorem prune_old_archives_keep_days_lt_one_witness :
    pruneOldArchives [⟨"2020-01-01-foo.tar", 1577836800⟩] 0 "foo" 1700000000 =
      ([⟨"2020-01-01-foo.tar", 1577836800⟩], 0, []) :=
  prune_old_archives_keep_days_lt_one
    [⟨"2020-01-01-foo.tar", 1577836800⟩] 0 "foo" 1700000000 (by decide)

/-- The Home Assistant per-file loop never deletes: the naive mtime
datetime is incomparable with the aware cutoff, the comparison raises
`TypeError`, and the handler absorbs it. -/
theorem haPruneScan_aware (t : Int) (l : List FSFile) :
    haPruneScan (PyDatetime.aware t) l = ([], 0) := by
  induction l with
  | nil => rfl
  | cons f rest ih => simp [haPruneScan, dtLt, ih]

/-- C10: for every existing destination directory, every `keep_days` and
every directory state, `prune_old_backups` deletes nothing and returns 0:
each comparison of the naive mtime against the aware cutoff raises
`TypeError`, which the per-file `except` absorbs, so the unlink branch is
unreachable. -/
theorem prune_old_backups_never_deletes (dir : List FSFile)
    (keepDays now : Int) :
    pruneOldBackups true dir keepDays now = (dir, 0) := by
  simp [pruneOldBackups, haPruneScan_aware, List.filter_eq_self]

/-! ## Claims about the ownership walk -/

/-- One pass of the `fix_permissions` loop body adds 1 to `scanned` and 1
to exactly one of `changed`, `skipped`, `errors`, so the counting
invariant is preserved. -/
theorem chownStep_preserves (uid gid : Nat) (dryRun includeDirs : Bool)
    (st : OwnershipCounts × List (String × Nat × Nat)) (p : FSPath)
    (h : st.1.scanned = st.1.changed + st.1.skipped + st.1.errors) :
    (chownStep uid gid dryRun includeDirs st p).1.scanned =
      (chownStep uid gid dryRun includeDirs st p).1.changed +
        (chownStep uid gid dryRun includeDirs st p).1.skipped +
        (chownStep uid gid dryRun includeDirs st p).1.errors := by
  unfold chownStep
  split
  · simp; omega
  · split
    · simp; omega
    · cases p.outcome <;> simp <;> omega

/-- The counting invariant is preserved across the whole fold. -/
theorem chownFold_preserves (uid gid : Nat) (dryRun includeDirs : Bool) :
    ∀ (l : List FSPath) (st : OwnershipCounts × List (String × Nat × Nat)),
      st.1.scanned = st.1.changed + st.1.skipped + st.1.errors →
      (l.foldl (chownStep uid gid dryRun includeDirs) st).1.scanned =
        (l.foldl (chownStep uid gid dryRun includeDirs) st).1.changed +
          (l.foldl (chownStep uid gid dryRun includeDirs) st).1.skipped +
          (l.foldl (chownStep uid gid dryRun includeDirs) st).1.errors := by
  intro l
  induction l with
  | nil => intro st h; exact h
  | cons p rest ih =>
    intro st h
    exact ih _ (chownStep_preserves uid gid dryRun includeDirs st p h)

/-- C4: for every completed ownership-normalization run — any root,
descendant list, uid, gid, dry-run flag and include-directories flag —
the returned counters satisfy `scanned = changed + skipped + errors`, and
all four counters are non-negative. -/
theorem fix_permissions_counts_invariant (root : FSPath)
    (descendants : List FSPath) (uid gid : Nat) (dryRun includeDirs : Bool) :
    (fixPermissions root descendants uid gid dryRun includeDirs).1.scanned =
      (fixPermissions root descendants uid gid dryRun includeDirs).1.changed +
        (fixPermissions root descendants uid gid dryRun includeDirs).1.skipped +
        (fixPermissions root descendants uid gid dryRun includeDirs).1.errors ∧
    0 ≤ (fixPermissions root descendants uid gid dryRun includeDirs).1.scanned ∧
    0 ≤ (fixPermissions root descendants uid gid dryRun includeDirs).1.changed ∧
    0 ≤ (fixPermissions root descendants uid gid dryRun includeDirs).1.skipped ∧
    0 ≤ (fixPermissions root descendants uid gid dryRun includeDirs).1.errors := by
  refine ⟨?_, Nat.zero_le _, Nat.zero_le _, Nat.zero_le _, Nat.zero_le _⟩
  exact chownFold_preserves uid gid dryRun includeDirs
    (fixTargets root descendants includeDirs) (⟨0, 0, 0, 0⟩, []) rfl

/-- In dry-run mode the fold mutates nothing and counts as changed
exactly the eligible paths it passes. -/
theorem chownFold_dry_run (uid gid : Nat) (includeDirs : Bool) :
    ∀ (l : List FSPath) (st : OwnershipCounts × List (String × Nat × Nat)),
      (l.foldl (chownStep uid gid true includeDirs) st).2 = st.2 ∧
      (l.foldl (chownStep uid gid true includeDirs) st).1.changed =
        st.1.changed + (l.filter (eligiblePath includeDirs)).length := by
  intro l
  induction l with
  | nil => intro st; exact ⟨rfl, rfl⟩
  | cons p rest ih =>
    intro st
    by_cases hp : p.isDir && !includeDirs
    · have hstep : chownStep uid gid true includeDirs st p =
          (⟨st.1.scanned + 1, st.1.changed, st.1.skipped + 1, st.1.errors⟩,
            st.2) := by
        simp [chownStep, hp]
      have hel : eligiblePath includeDirs p = false := by
        simp [eligiblePath, hp]
      obtain ⟨h1, h2⟩ := ih (chownStep uid gid true includeDirs st p)
      refine ⟨by rw [List.foldl_cons, h1, hstep], ?_⟩
      rw [List.foldl_cons, h2, hstep, List.filter_cons, hel]
      simp
    · have hpf : (p.isDir && !includeDirs) = false := by
        simp only [Bool.not_eq_true] at hp
        exact hp
      have hstep : chownStep uid gid true includeDirs st p =
          (⟨st.1.scanned + 1, st.1.changed + 1, st.1.skipped, st.1.errors⟩,
            st.2) := by
        simp [chownStep, hpf]
      have hel : eligiblePath includeDirs p = true := by
        simp [eligiblePath, hpf]
      obtain ⟨h1, h2⟩ := ih (chownStep uid gid true includeDirs st p)
      refine ⟨by rw [List.foldl_cons, h1, hstep], ?_⟩
      rw [List.foldl_cons, h2, hstep, List.filter_cons, hel]
      simp only [if_true, List.length_cons]
      omega

/-- C7: a dry run performs no `os.chown` mutation — the filesystem is
left unchanged — and its `changed` counter equals the number of eligible
paths, the paths a real run would attempt to chown. -/
theorem fix_permissions_dry_run_frame (root : FSPath)
    (descendants : List FSPath) (uid gid : Nat) (includeDirs : Bool) :
    (fixPermissions root descendants uid gid true includeDirs).2 = [] ∧
    (fixPermissions root descendants uid gid true includeDirs).1.changed =
      ((fixTargets root descendants includeDirs).filter
        (eligiblePath includeDirs)).length := by
  obtain ⟨h1, h2⟩ := chownFold_dry_run uid gid includeDirs
    (fixTargets root descendants includeDirs) (⟨0, 0, 0, 0⟩, [])
  unfold fixPermissions
  exact ⟨h1, by rw [h2]; simp⟩

/-! ## Claim about the tar invocation -/

/-- Whatever is already in the accumulated argument vector stays there as
the exclusion fold appends. -/
theorem tarFold_mem_mono (x : String) :
    ∀ (excludes c0 : List String), x ∈ c0 →
      x ∈ excludes.foldl
        (fun c ex => c ++ ["--exclude=./" ++ ex, "--exclude=./" ++ ex ++ "/*"])
        c0 := by
  intro excludes
  induction excludes with
  | nil => intro c0 h; exact h
  | cons e rest ih =>
    intro c0 h
    exact ih _ (List.mem_append_left _ h)

/-- Each exclusion contributes its two anchored arguments to the fold. -/
theorem tarFold_mem (ex : String) :
    ∀ (excludes c0 : List String), ex ∈ excludes →
      ("--exclude=./" ++ ex) ∈ excludes.foldl
        (fun c e => c ++ ["--exclude=./" ++ e, "--exclude=./" ++ e ++ "/*"])
        c0 ∧
      ("--exclude=./" ++ ex ++ "/*") ∈ excludes.foldl
        (fun c e => c ++ ["--exclude=./" ++ e, "--exclude=./" ++ e ++ "/*"])
        c0 := by
  intro excludes
  induction excludes with
  | nil => intro c0 h; cases h
  | cons e rest ih =>
    intro c0 h
    rcases List.mem_cons.mp h with rfl | hrest
    · constructor
      · exact tarFold_mem_mono _ rest _ (by simp)
      · exact tarFold_mem_mono _ rest _ (by simp)
    · exact ih _ hrest

/-- C5: for every entry of the parsed exclusion set, `create_tar` passes
both `--exclude=./{entry}` and `--exclude=./{entry}/*` to tar — anchoring
the exclusion at the target root so it covers the directory and its whole
subtree — and the exclusion arguments are followed by
`-cf <archive> -C <target> .`. -/
theorem create_tar_exclude_args (archive target spec ex : String)
    (h : ex ∈ parseExcludeDirs (some spec)) :
    ("--exclude=./" ++ ex) ∈
        createTarCmd archive target (parseExcludeDirs (some spec)) ∧
      ("--exclude=./" ++ ex ++ "/*") ∈
        createTarCmd archive target (parseExcludeDirs (some spec)) ∧
      ∃ front, createTarCmd archive target (parseExcludeDirs (some spec)) =
        front ++ ["-cf", archive, "-C", target, "."] := by
  obtain ⟨h1, h2⟩ := tarFold_mem ex (parseExcludeDirs (some spec)) ["tar"] h
  refine ⟨?_, ?_, ?_⟩
  · exact List.mem_append_left _ h1
  · exact List.mem_append_left _ h2
  · exact ⟨_, rfl⟩

/-- Witness for C5 on the spec's example exclusion string, at entry
`"b"`. -/
theorem create_tar_exclude_args_witness :
    ("--exclude=./" ++ "b") ∈
        createTarCmd "/d/a.tar" "/t" (parseExcludeDirs (some "a, /b/, ,c/")) ∧
      ("--exclude=./" ++ "b" ++ "/*") ∈
        createTarCmd "/d/a.tar" "/t" (parseExcludeDirs (some "a, /b/, ,c/")) ∧
      ∃ front, createTarCmd "/d/a.tar" "/t" (parseExcludeDirs (some "a, /b/, ,c/")) =
        front ++ ["-cf", "/d/a.tar", "-C", "/t", "."] :=
  create_tar_exclude_args "/d/a.tar" "/t" "a, /b/, ,c/" "b" (by decide)

/-! ## C1: the generic pruner deletes exactly the old matching archives -/

/-- Inserting into the name-sorted list is a permutation of consing. -/
theorem insertByName_perm (f : FSFile) :
    ∀ l : List FSFile, (insertByName f l).Perm (f :: l) := by
  intro l
  induction l with
  | nil => exact List.Perm.refl _
  | cons g gs ih =>
    by_cases h : f.name < g.name
    · simp [insertByName, h]
    · simp only [insertByName, h, if_false]
      exact (ih.cons g).trans (List.Perm.swap f g gs)

/-- Sorting the glob listing only permutes it. -/
theorem sortByName_perm : ∀ l : List FSFile, (sortByName l).Perm l := by
  intro l
  induction l with
  | nil => exact List.Perm.refl _
  | cons f rest ih =>
    exact (insertByName_perm f (sortByName rest)).trans (ih.cons f)

/-- A name is collected by the pruning loop exactly when some listed file
carries that name and is older than the cutoff. -/
theorem pruneScan_mem (cutoff : Int) :
    ∀ (l : List FSFile) (name : String),
      name ∈ (pruneScan cutoff l).1 ↔
        ∃ f, f ∈ l ∧ f.name = name ∧ f.mtime < cutoff := by
  intro l
  induction l with
  | nil => intro name; simp [pruneScan]
  | cons f rest ih =>
    intro name
    by_cases h : f.mtime < cutoff
    · simp only [pruneScan, if_pos h, List.mem_cons, ih]
      constructor
      · rintro (rfl | ⟨g, hg, rfl, hold⟩)
        · exact ⟨f, Or.inl rfl, rfl, h⟩
        · exact ⟨g, Or.inr hg, rfl, hold⟩
      · rintro ⟨g, hgl | hgl, rfl, hold⟩
        · exact Or.inl (by rw [hgl])
        · exact Or.inr ⟨g, hgl, rfl, hold⟩
    · simp only [pruneScan, if_neg h, ih]
      constructor
      · rintro ⟨g, hg, rfl, hold⟩
        exact ⟨g, List.mem_cons_of_mem f hg, rfl, hold⟩
      · rintro ⟨g, hgl, rfl, hold⟩
        rcases List.mem_cons.mp hgl with rfl | hgl
        · exact absurd hold h
        · exact ⟨g, hgl, rfl, hold⟩

/-- The count returned by the pruning loop is the number of listed files
older than the cutoff. -/
theorem pruneScan_count (cutoff : Int) :
    ∀ l : List FSFile,
      (pruneScan cutoff l).2.1 =
        (l.filter (fun f => decide (f.mtime < cutoff))).length := by
  intro l
  induction l with
  | nil => rfl
  | cons f rest ih =>
    by_cases h : f.mtime < cutoff
    · simp [pruneScan, if_pos h, List.filter_cons, h, ih]
    · simp [pruneScan, if_neg h, List.filter_cons, h, ih]

/-- C1: with `keep_days ≥ 1` and distinct file names, the generic pruner
leaves exactly the files that do not both match the glob pattern
`*-{slug(name_hint)}.tar` and have mtime strictly before
`now - keep_days` days — files kept are kept unmodified, in place — and
its return value counts the deleted files. -/
theorem prune_old_archives_deletes_iff (dir : List FSFile)
    (keepDays now : Int) (nameHint : String) (hkeep : 1 ≤ keepDays)
    (hnd : (dir.map FSFile.name).Nodup) :
    (pruneOldArchives dir keepDays nameHint now).1 =
      dir.filter (fun f =>
        !(matchesArchivePattern (slugify nameHint) f.name &&
          decide (f.mtime < now - keepDays * 86400))) ∧
    (pruneOldArchives dir keepDays nameHint now).2.1 =
      (dir.filter (fun f =>
        matchesArchivePattern (slugify nameHint) f.name &&
          decide (f.mtime < now - keepDays * 86400))).length := by
  have hlt : ¬ keepDays < 1 := by omega
  have hperm :
      (sortByName (dir.filter
        (fun f => matchesArchivePattern (slugify nameHint) f.name))).Perm
        (dir.filter (fun f => matchesArchivePattern (slugify nameHint) f.name)) :=
    sortByName_perm _
  have key : ∀ f ∈ dir,
      ((pruneScan (now - keepDays * 86400)
        (sortByName (dir.filter
          (fun f => matchesArchivePattern (slugify nameHint) f.name)))).1.contains
            f.name) =
        (matchesArchivePattern (slugify nameHint) f.name &&
          decide (f.mtime < now - keepDays * 86400)) := by
    intro f hf
    rw [Bool.eq_iff_iff]
    rw [List.contains_iff_exists_mem_beq]
    constructor
    · rintro ⟨name, hmem, hbeq⟩
      have hname : f.name = name := by
        simpa using hbeq
      rw [← hname] at hmem
      obtain ⟨g, hgl, hgname, hgold⟩ := (pruneScan_mem _ _ _).mp hmem
      have hgdir : g ∈ dir.filter
          (fun f => matchesArchivePattern (slugify nameHint) f.name) :=
        hperm.mem_iff.mp hgl
      have hgmem := List.mem_filter.mp hgdir
      have : g = f :=
        List.inj_on_of_nodup_map hnd hgmem.1 hf hgname
      subst this
      simp [hgmem.2, hgold]
    · intro hmatch
      simp only [Bool.and_eq_true, decide_eq_true_eq] at hmatch
      refine ⟨f.name, ?_, by simp⟩
      refine (pruneScan_mem _ _ _).mpr ⟨f, ?_, rfl, hmatch.2⟩
      exact hperm.mem_iff.mpr (List.mem_filter.mpr ⟨hf, hmatch.1⟩)
  constructor
  · show (pruneOldArchives dir keepDays nameHint now).1 = _
    simp only [pruneOldArchives, if_neg hlt]
    exact List.filter_congr (fun f hf => by rw [key f hf])
  · show (pruneOldArchives dir keepDays nameHint now).2.1 = _
    simp only [pruneOldArchives, if_neg hlt]
    rw [pruneScan_count]
    rw [(hperm.filter _).length_eq]
    rw [List.filter_filter]
    exact congrArg List.length (List.filter_congr (fun f _ => Bool.and_comm _ _))

/-- Witness for C1: with `keep_days = 10` and clock 1700000000, the old
`foo` archive is deleted while the fresh `foo` archive and the `bar`
archive survive unmodified. -/
theorem prune_old_archives_deletes_iff_witness :
    (pruneOldArchives
        [⟨"2020-01-01-foo.tar", 1577836800⟩,
         ⟨"2099-01-01-foo.tar", 4070908800⟩,
         ⟨"2020-01-01-bar.tar", 1577836800⟩] 10 "foo" 1700000000).1 =
      ([⟨"2020-01-01-foo.tar", 1577836800⟩,
        ⟨"2099-01-01-foo.tar", 4070908800⟩,
        ⟨"2020-01-01-bar.tar", 1577836800⟩] : List FSFile).filter (fun f =>
        !(matchesArchivePattern (slugify "foo") f.name &&
          decide (f.mtime < 1700000000 - 10 * 86400))) ∧
    (pruneOldArchives
        [⟨"2020-01-01-foo.tar", 1577836800⟩,
         ⟨"2099-01-01-foo.tar", 4070908800⟩,
         ⟨"2020-01-01-bar.tar", 1577836800⟩] 10 "foo" 1700000000).2.1 =
      (([⟨"2020-01-01-foo.tar", 1577836800⟩,
         ⟨"2099-01-01-foo.tar", 4070908800⟩,
         ⟨"2020-01-01-bar.tar", 1577836800⟩] : List FSFile).filter (fun f =>
        matchesArchivePattern (slugify "foo") f.name &&
          decide (f.mtime < 1700000000 - 10 * 86400))).length :=
  prune_old_archives_deletes_iff
    [⟨"2020-01-01-foo.tar", 1577836800⟩,
     ⟨"2099-01-01-foo.tar", 4070908800⟩,
     ⟨"2020-01-01-bar.tar", 1577836800⟩] 10 1700000000 "foo"
    (by decide) (by decide)

/-! ## C6: the slugifier is total, safe and idempotent -/

/-- Characters of the slug class are not whitespace. -/
theorem isSlugChar_not_space (c : Char) (h : isSlugChar c = true) :
    isSpaceChar c = false := by
  simp only [isSlugChar, Bool.or_eq_true, Bool.and_eq_true, decide_eq_true_eq,
    beq_iff_eq] at h
  simp only [isSpaceChar, Bool.or_eq_false_iff, Bool.and_eq_false_iff,
    decide_eq_false_iff_not, beq_eq_false_iff_ne, ne_eq]
  omega

/-- Lowercasing fixes every character of the slug class. -/
theorem lowerChar_slug (c : Char) (h : isSlugChar c = true) : lowerChar c = c := by
  simp only [isSlugChar, Bool.or_eq_true, Bool.and_eq_true, decide_eq_true_eq,
    beq_iff_eq] at h
  unfold lowerChar
  rw [if_neg]
  simp only [Bool.and_eq_true, decide_eq_true_eq, not_and]
  omega

/-- The dash belongs to the slug class. -/
theorem isSlugChar_dash : isSlugChar '-' = true := by decide

/-- Unfolding equation of `dropTrailing` on a cons cell. -/
theorem dropTrailing_cons (p : Char → Bool) (c : Char) (cs : List Char) :
    dropTrailing p (c :: cs) =
      if (dropTrailing p cs).isEmpty && p c then [] else c :: dropTrailing p cs :=
  rfl

/-- `dropTrailing` returns a leading segment of its input. -/
theorem dropTrailing_decomp (p : Char → Bool) :
    ∀ l : List Char, ∃ t, dropTrailing p l ++ t = l := by
  intro l
  induction l with
  | nil => exact ⟨[], rfl⟩
  | cons c cs ih =>
    obtain ⟨t, ht⟩ := ih
    by_cases h : ((dropTrailing p cs).isEmpty && p c) = true
    · exact ⟨c :: cs, by rw [dropTrailing_cons, if_pos h]; rfl⟩
    · refine ⟨t, ?_⟩
      rw [dropTrailing_cons, if_neg h, List.cons_append, ht]

/-- The last kept character does not satisfy the dropped class. -/
theorem dropTrailing_getLast (p : Char → Bool) :
    ∀ (l : List Char) (a : Char),
      (dropTrailing p l).getLast? = some a → p a = false := by
  intro l
  induction l with
  | nil => intro a h; simp [dropTrailing] at h
  | cons c cs ih =>
    intro a h
    by_cases hc : ((dropTrailing p cs).isEmpty && p c) = true
    · rw [dropTrailing_cons, if_pos hc] at h
      simp at h
    · rw [dropTrailing_cons, if_neg hc] at h
      rcases hr : dropTrailing p cs with _ | ⟨d, ds⟩
      · rw [hr] at h
        simp only [List.getLast?_singleton, Option.some_inj] at h
        subst h
        rw [hr] at hc
        simp only [List.isEmpty_nil, Bool.true_and, Bool.not_eq_true] at hc
        exact hc
      · rw [hr, List.getLast?_cons_cons] at h
        exact ih a (by rw [hr]; exact h)

/-- `dropTrailing` keeps the head unless it drops everything. -/
theorem dropTrailing_head (p : Char → Bool) (l : List Char) :
    dropTrailing p l = [] ∨ (dropTrailing p l).head? = l.head? := by
  cases l with
  | nil => exact Or.inl rfl
  | cons c cs =>
    by_cases h : ((dropTrailing p cs).isEmpty && p c) = true
    · exact Or.inl (by rw [dropTrailing_cons, if_pos h])
    · exact Or.inr (by rw [dropTrailing_cons, if_neg h]; rfl)

/-- The head surviving `dropWhile` does not satisfy the predicate. -/
theorem dropWhile_head (p : Char → Bool) :
    ∀ (l : List Char) (a : Char), (l.dropWhile p).head? = some a → p a = false := by
  intro l
  induction l with
  | nil => intro a h; simp at h
  | cons c cs ih =>
    intro a h
    by_cases hc : p c
    · rw [List.dropWhile_cons_of_pos hc] at h
      exact ih a h
    · rw [List.dropWhile_cons_of_neg hc] at h
      have : c = a := by
        have hh : some c = some a := h
        injection hh
      subst this
      simpa using hc

/-- `dropWhile` is the identity when the head already fails `p`. -/
theorem dropWhile_eq_self (p : Char → Bool) (l : List Char)
    (h : ∀ a, l.head? = some a → p a = false) : l.dropWhile p = l := by
  cases l with
  | nil => rfl
  | cons c cs => exact List.dropWhile_cons_of_neg (by simp [h c rfl])

/-- `dropTrailing` is the identity when the last element fails `p`. -/
theorem dropTrailing_eq_self (p : Char → Bool) :
    ∀ l : List Char, (∀ a, l.getLast? = some a → p a = false) →
      dropTrailing p l = l := by
  intro l
  induction l with
  | nil => intro _; rfl
  | cons c cs ih =>
    intro h
    cases cs with
    | nil =>
      have hc : p c = false := h c rfl
      rw [dropTrailing_cons]
      rw [if_neg (by simp [hc])]
      rfl
    | cons d ds =>
      have hcs : dropTrailing p (d :: ds) = d :: ds := by
        refine ih ?_
        intro a ha
        exact h a (by rw [List.getLast?_cons_cons]; exact ha)
      rw [dropTrailing_cons, hcs]
      rw [if_neg (by simp)]


/-- Stripping both ends only removes characters. -/
theorem stripEnds_subset (p : Char → Bool) (l : List Char) :
    ∀ c ∈ stripEnds p l, c ∈ l := by
  intro c hc
  obtain ⟨t, ht⟩ := dropTrailing_decomp p (l.dropWhile p)
  have : c ∈ l.dropWhile p := by
    rw [← ht]
    exact List.mem_append_left _ hc
  exact (List.dropWhile_sublist p).subset this

/-- Stripping both ends preserves the no-adjacent-dash chain. -/
theorem stripEnds_chain (p : Char → Bool) (l : List Char)
    (h : List.Chain' noadj l) : List.Chain' noadj (stripEnds p l) := by
  have h1 : List.Chain' noadj (l.dropWhile p) :=
    List.Chain'.suffix h (List.dropWhile_suffix p)
  obtain ⟨t, ht⟩ := dropTrailing_decomp p (l.dropWhile p)
  exact List.Chain'.prefix h1 ⟨t, ht⟩

/-- After stripping, the head does not satisfy the stripped class. -/
theorem stripEnds_head (p : Char → Bool) (l : List Char) (a : Char)
    (h : (stripEnds p l).head? = some a) : p a = false := by
  rcases dropTrailing_head p (l.dropWhile p) with he | hh
  · rw [stripEnds, he] at h
    simp at h
  · rw [stripEnds, hh] at h
    exact dropWhile_head p l a h

/-- After stripping, the last character does not satisfy the class. -/
theorem stripEnds_getLast (p : Char → Bool) (l : List Char) (a : Char)
    (h : (stripEnds p l).getLast? = some a) : p a = false :=
  dropTrailing_getLast p _ a h

/-- Stripping is the identity when both ends already fail `p`. -/
theorem stripEnds_eq_self (p : Char → Bool) (l : List Char)
    (hh : ∀ a, l.head? = some a → p a = false)
    (hl : ∀ a, l.getLast? = some a → p a = false) : stripEnds p l = l := by
  rw [stripEnds, dropWhile_eq_self p l hh]
  exact dropTrailing_eq_self p l hl


/-- Every character the run-replacement emits is in the slug class. -/
theorem replaceBadRunsGo_all :
    ∀ (l : List Char) (b : Bool), ∀ c ∈ replaceBadRunsGo b l, isSlugChar c = true := by
  intro l
  induction l with
  | nil => intro b c hc; simp [replaceBadRunsGo] at hc
  | cons d ds ih =>
    intro b c hc
    by_cases hd : isSlugChar d = true
    · rw [replaceBadRunsGo, if_pos hd] at hc
      rcases List.mem_cons.mp hc with rfl | hc
      · exact hd
      · exact ih false c hc
    · rw [replaceBadRunsGo, if_neg hd] at hc
      by_cases hb : b = true
      · rw [if_pos hb] at hc
        exact ih b c hc
      · have : b = false := by
          simpa using hb
        rw [this] at hc
        simp only [Bool.false_eq_true, if_false] at hc
        rcases List.mem_cons.mp hc with rfl | hc
        · exact isSlugChar_dash
        · exact ih true c hc

/-- The run-replacement fixes strings made of class characters. -/
theorem replaceBadRunsGo_eq_self (l : List Char)
    (h : ∀ c ∈ l, isSlugChar c = true) : ∀ b, replaceBadRunsGo b l = l := by
  induction l with
  | nil => intro b; rfl
  | cons d ds ih =>
    intro b
    rw [replaceBadRunsGo, if_pos (h d (List.mem_cons_self d ds))]
    rw [ih (fun c hc => h c (List.mem_cons_of_mem d hc)) false]

/-- Unfolding equation of the dash collapse on a cons cell. -/
theorem collapseDashesGo_cons (b : Bool) (c : Char) (cs : List Char) :
    collapseDashesGo b (c :: cs) =
      if c == '-' then
        if b then collapseDashesGo b cs else '-' :: collapseDashesGo true cs
      else c :: collapseDashesGo false cs :=
  rfl

/-- Dash collapsing stays inside the slug class. -/
theorem collapseDashesGo_all (l : List Char) (h : ∀ c ∈ l, isSlugChar c = true) :
    ∀ b, ∀ c ∈ collapseDashesGo b l, isSlugChar c = true := by
  induction l with
  | nil => intro b c hc; simp [collapseDashesGo] at hc
  | cons d ds ih =>
    intro b c hc
    have hds : ∀ c ∈ ds, isSlugChar c = true :=
      fun c hc => h c (List.mem_cons_of_mem d hc)
    by_cases hd : (d == '-') = true
    · rw [collapseDashesGo_cons, if_pos hd] at hc
      by_cases hb : b = true
      · rw [if_pos hb] at hc
        exact ih hds b c hc
      · have hb' : b = false := by simpa using hb
        rw [hb'] at hc
        simp only [Bool.false_eq_true, if_false] at hc
        rcases List.mem_cons.mp hc with rfl | hc
        · exact isSlugChar_dash
        · exact ih hds true c hc
    · rw [collapseDashesGo_cons, if_neg hd] at hc
      rcases List.mem_cons.mp hc with rfl | hc
      · exact h c (List.mem_cons_self _ _)
      · exact ih hds false c hc

/-- With the in-run flag set, the collapse never emits a leading dash. -/
theorem collapseDashesGo_head_true (l : List Char) (a : Char)
    (h : (collapseDashesGo true l).head? = some a) : a ≠ '-' := by
  induction l with
  | nil => simp [collapseDashesGo] at h
  | cons d ds ih =>
    by_cases hd : (d == '-') = true
    · rw [collapseDashesGo_cons, if_pos hd, if_pos rfl] at h
      exact ih h
    · rw [collapseDashesGo_cons, if_neg hd] at h
      have : d = a := by
        have hh : some d = some a := h
        injection hh
      subst this
      simpa using hd

/-- The collapse output never has two adjacent dashes. -/
theorem collapseDashesGo_chain (l : List Char) :
    ∀ b, List.Chain' noadj (collapseDashesGo b l) := by
  induction l with
  | nil => intro b; simp [collapseDashesGo]
  | cons d ds ih =>
    intro b
    by_cases hd : (d == '-') = true
    · rw [collapseDashesGo_cons, if_pos hd]
      by_cases hb : b = true
      · rw [if_pos hb]
        exact ih b
      · have hb' : b = false := by simpa using hb
        rw [hb']
        simp only [Bool.false_eq_true, if_false]
        rw [List.chain'_cons']
        refine ⟨?_, ih true⟩
        intro y hy
        intro ⟨_, hy'⟩
        exact collapseDashesGo_head_true ds y hy hy'
    · rw [collapseDashesGo_cons, if_neg hd]
      rw [List.chain'_cons']
      refine ⟨?_, ih false⟩
      intro y hy
      intro ⟨hd', _⟩
      exact absurd hd' (by simpa using hd)


/-- The collapse fixes lists with no two adjacent dashes. -/
theorem collapseDashesGo_eq_self :
    ∀ l : List Char, List.Chain' noadj l →
      collapseDashesGo false l = l ∧
        ((∀ a, l.head? = some a → a ≠ '-') → collapseDashesGo true l = l) := by
  intro l
  induction l with
  | nil => intro _; exact ⟨rfl, fun _ => rfl⟩
  | cons c cs ih =>
    intro hch
    obtain ⟨hr, hch'⟩ := List.chain'_cons'.mp hch
    obtain ⟨ih0, ih1⟩ := ih hch'
    by_cases hc : (c == '-') = true
    · have hceq : c = '-' := by simpa using hc
      have hcs : collapseDashesGo true cs = cs := by
        refine ih1 ?_
        intro a ha
        have := hr a ha
        subst hceq
        intro haeq
        exact this ⟨rfl, haeq⟩
      constructor
      · rw [collapseDashesGo_cons, if_pos hc]
        simp only [Bool.false_eq_true, if_false]
        rw [hcs, hceq]
      · intro hhead
        exact absurd hceq (hhead c rfl)
    · have hcs0 : collapseDashesGo false cs = cs := ih0
      constructor
      · rw [collapseDashesGo_cons, if_neg hc, hcs0]
      · intro _
        rw [collapseDashesGo_cons, if_neg hc, hcs0]

/-- Repacking the character data of a string gives the string back. -/
theorem string_mk_data (t : String) : String.mk t.data = t := rfl


/-- The head is a member. -/
theorem mem_of_head (l : List Char) (a : Char) (h : l.head? = some a) : a ∈ l := by
  cases l with
  | nil => simp at h
  | cons c cs =>
    have : some c = some a := h
    have : c = a := by injection this
    subst this
    exact List.mem_cons_self _ _

/-- The last element is a member. -/
theorem mem_of_getLast (l : List Char) (a : Char) (h : l.getLast? = some a) :
    a ∈ l := by
  obtain ⟨ys, rfl⟩ := List.getLast?_eq_some_iff.mp h
  simp

/-- Lowercasing fixes lists of class characters. -/
theorem map_lowerChar_eq_self (l : List Char)
    (h : ∀ c ∈ l, isSlugChar c = true) : l.map lowerChar = l := by
  induction l with
  | nil => rfl
  | cons c cs ih =>
    rw [List.map_cons, lowerChar_slug c (h c (List.mem_cons_self _ _)),
      ih (fun c hc => h c (List.mem_cons_of_mem _ hc))]

/-- Every `_slugify` output is in normal form and non-empty. -/
theorem slugify_normal (s : String) :
    SlugNormal (slugify s).data ∧ (slugify s).data ≠ [] := by
  have hall : ∀ c ∈ replaceBadRuns ((stripEnds isSpaceChar s.data).map lowerChar),
      isSlugChar c = true := fun c hc => replaceBadRunsGo_all _ false c hc
  have hs : slugify s =
      (if (stripEnds (fun c => c == '-')
          (collapseDashes (replaceBadRuns
            ((stripEnds isSpaceChar s.data).map lowerChar)))).isEmpty then
        "backup"
      else String.mk (stripEnds (fun c => c == '-')
          (collapseDashes (replaceBadRuns
            ((stripEnds isSpaceChar s.data).map lowerChar))))) := rfl
  by_cases he : (stripEnds (fun c => c == '-')
      (collapseDashes (replaceBadRuns
        ((stripEnds isSpaceChar s.data).map lowerChar)))).isEmpty = true
  · rw [hs, if_pos he]
    refine ⟨⟨by decide, ?_, by decide, by decide⟩, by decide⟩
    simp only [List.chain'_cons, List.chain'_singleton, String.data]
    refine ⟨?_, ?_, ?_, ?_, ?_, trivial⟩ <;> decide
  · rw [hs, if_neg he]
    refine ⟨⟨?_, ?_, ?_, ?_⟩, ?_⟩
    · intro c hc
      have h1 : c ∈ collapseDashes (replaceBadRuns
          ((stripEnds isSpaceChar s.data).map lowerChar)) :=
        stripEnds_subset _ _ c hc
      exact collapseDashesGo_all _ hall false c h1
    · exact stripEnds_chain _ _ (collapseDashesGo_chain _ false)
    · intro hh
      have := stripEnds_head _ _ '-' hh
      simp at this
    · intro hh
      have := stripEnds_getLast _ _ '-' hh
      simp at this
    · intro hn
      exact he (by simpa using congrArg List.isEmpty hn)

/-- `_slugify` fixes every non-empty normal-form string. -/
theorem slugify_fix (l : List Char) (h : SlugNormal l) (hne : l ≠ []) :
    slugify (String.mk l) = String.mk l := by
  obtain ⟨hall, hch, hhead, hlast⟩ := h
  have e1 : stripEnds isSpaceChar l = l := by
    refine stripEnds_eq_self _ _ ?_ ?_
    · intro a ha
      exact isSlugChar_not_space a (hall a (mem_of_head l a ha))
    · intro a ha
      exact isSlugChar_not_space a (hall a (mem_of_getLast l a ha))
  have e2 : l.map lowerChar = l := map_lowerChar_eq_self l hall
  have e3 : replaceBadRuns l = l := replaceBadRunsGo_eq_self l hall false
  have e4 : collapseDashes l = l := (collapseDashesGo_eq_self l hch).1
  have e5 : stripEnds (fun c => c == '-') l = l := by
    refine stripEnds_eq_self _ _ ?_ ?_
    · intro a ha
      have : a ≠ '-' := fun haeq => hhead (by rw [← haeq]; exact ha)
      simpa using this
    · intro a ha
      have : a ≠ '-' := fun haeq => hlast (by rw [← haeq]; exact ha)
      simpa using this
  have hs : slugify (String.mk l) =
      (if (stripEnds (fun c => c == '-')
          (collapseDashes (replaceBadRuns
            ((stripEnds isSpaceChar l).map lowerChar)))).isEmpty then
        "backup"
      else String.mk (stripEnds (fun c => c == '-')
          (collapseDashes (replaceBadRuns
            ((stripEnds isSpaceChar l).map lowerChar))))) := rfl
  rw [hs, e1, e2, e3, e4, e5]
  rw [if_neg]
  intro hemp
  exact hne (List.isEmpty_iff.mp hemp)

/-- C6: for every string, `_slugify` returns a non-empty string all of
whose characters lie in `[a-z0-9._-]`, and `_slugify` is idempotent. -/
theorem slugify_safe_idempotent (s : String) :
    slugify s ≠ "" ∧ (∀ c ∈ (slugify s).data, isSlugChar c = true) ∧
      slugify (slugify s) = slugify s := by
  obtain ⟨hn, hne⟩ := slugify_normal s
  refine ⟨?_, hn.1, ?_⟩
  · intro h
    rw [h] at hne
    exact hne rfl
  · have := slugify_fix (slugify s).data hn hne
    rwa [string_mk_data] at this

end HomelabOps
